import Mathlib

/-!
Shallow embedding of the image-filter plugin library (`plugins.py`).

Pixels are RGBA records of natural-number channels; a grid is a list of
rows.  Each Python filter that rewrites the whole grid from loop indices
(reading only from a snapshot, or from positions whose values it has not
yet overwritten) is embedded as the corresponding functional map over
`List.range`; filters that can raise are embedded in `Except`.

Python's float arithmetic in `mono` is embedded exactly: `fl` rounds a
rational to the nearest IEEE-754 binary64 value (round half to even,
normal range), so `fl (a * b)` and `fl (a + b)` are precisely the float
product and sum the interpreter computes on this input domain.
-/

namespace Pictool

set_option maxRecDepth 8000

structure RGB where
  red : Nat
  green : Nat
  blue : Nat
  alpha : Nat
deriving DecidableEq

instance : Inhabited RGB := ⟨⟨0, 0, 0, 0⟩⟩

abbrev Grid := List (List RGB)

/-- `image[r][c]` (with a default value out of range, which no embedded
filter ever reads under the rectangular invariant). -/
def getPx (g : Grid) (r c : Nat) : RGB := (g.getD r []).getD c default

/-- The grid has `h` rows and every row has length `w`
(the rectangular invariant). -/
def Rect (g : Grid) (h w : Nat) : Prop :=
  g.length = h ∧ ∀ row ∈ g, row.length = w

instance (g : Grid) (h w : Nat) : Decidable (Rect g h w) := by
  unfold Rect; infer_instance

/-- Round half to even: the integer nearest to `x`, ties to the even one. -/
def rhe (x : ℚ) : ℤ :=
  let n := ⌊x⌋
  let r := x - n
  if r < 1/2 then n else if 1/2 < r then n + 1 else if Even n then n else n + 1

/-- `2 ^ k` as a rational, built directly (kernel-reduction friendly). -/
def pw2 (k : ℕ) : ℚ := Rat.ofInt (Int.ofNat (2 ^ k))

/-- Nearest binary64 value of a positive rational: round the 53-bit
mantissa (the value scaled into `[2^52, 2^53)`) half to even.  (No
overflow/subnormal handling: every value in this development is far
inside the normal range.) -/
def roundPos (q : ℚ) : ℚ :=
  let l := Int.log 2 q
  if 52 ≤ l then (rhe (q / pw2 (l - 52).toNat) : ℚ) * pw2 (l - 52).toNat
  else (rhe (q * pw2 (52 - l).toNat) : ℚ) / pw2 (52 - l).toNat

/-- Nearest binary64 value of a rational: the result of any single
IEEE-754 arithmetic operation whose exact value is `q`. -/
def fl (q : ℚ) : ℚ :=
  if q < 0 then -roundPos (-q) else if q = 0 then 0 else roundPos q

/-- The binary64 value of the literal `0.3`. -/
def c03 : ℚ := fl (3/10)

/-- The binary64 value of the literal `0.6`. -/
def c06 : ℚ := fl (6/10)

/-- The binary64 value of the literal `0.1`. -/
def c01 : ℚ := fl (1/10)

/-- The binary64 value of the literal `0.4`. -/
def c04 : ℚ := fl (4/10)

/-- Python `int(q)` on a nonnegative value (truncation = floor there). -/
def pytrunc (q : ℚ) : Nat := (Int.floor q).toNat

/-- `int(0.3 * red + 0.6 * green + 0.1 * blue)` exactly as the floats
evaluate: each product and each (left-associated) sum is rounded. -/
def brightnessF (r g b : Nat) : Nat :=
  pytrunc (fl (fl (fl (c03 * r) + fl (c06 * g)) + fl (c01 * b)))

/-- Per-pixel action of `mono`: sets all channels to the clamped
brightness, then under `sepia` overwrites green and blue from the raw
brightness. -/
def monoPixel (sepia : Bool) (p : RGB) : RGB :=
  let brightness := brightnessF p.red p.green p.blue
  let base := min brightness 255
  if sepia then
    ⟨base, min (pytrunc (fl (c06 * brightness))) 255,
      min (pytrunc (fl (c04 * brightness))) 255, p.alpha⟩
  else
    ⟨base, base, base, p.alpha⟩

/-- `mono(image, sepia)`: the loop mutates each pixel independently. -/
def mono (g : Grid) (sepia : Bool) : Grid :=
  g.map fun row => row.map (monoPixel sepia)

/-- `flip(image, vertical)`: every cell is rewritten from the snapshot
`original_image`. -/
def flip (g : Grid) (vertical : Bool) : Grid :=
  let height := g.length
  let width := (g.headD []).length
  (List.range height).map fun row => (List.range width).map fun col =>
    if vertical then getPx g (height - 1 - row) col
    else getPx g row (width - 1 - col)

/-- `transpose(image)`: the grid is replaced by the transposed copy,
`new[r][c] = old[c][r]`. -/
def transpose (g : Grid) : Grid :=
  let height := g.length
  let width := (g.headD []).length
  (List.range width).map fun row => (List.range height).map fun col =>
    getPx g col row

/-- `rotate(image, right)`: composition of `transpose` and vertical
`flip`, in the order the code calls them. -/
def rotate (g : Grid) (right : Bool) : Grid :=
  if right then transpose (flip g true) else flip (transpose g) true

/-- Clamp `max(0, min(v, hi))` used for blur's edge replication. -/
def clampI (v hi : ℤ) : ℤ := max 0 (min v hi)

/-- The list of offsets `range(-radius, radius + 1)`. -/
def offsets (radius : ℤ) : List ℤ :=
  (List.range (2 * radius + 1).toNat).map fun (k : Nat) => (k : ℤ) - radius

/-- One blurred pixel: channel sums over the clamped box divided by the
sample count (`//`, truncating). -/
def blurPixel (g : Grid) (h w : Nat) (radius : ℤ) (row col : Nat) : RGB :=
  let offs := offsets radius
  let count := offs.length * offs.length
  let sumCh (f : RGB → Nat) : Nat :=
    (offs.map fun i =>
      (offs.map fun j =>
        f (getPx g (clampI (row + i) ((h : ℤ) - 1)).toNat
            (clampI (col + j) ((w : ℤ) - 1)).toNat)).sum).sum
  ⟨sumCh RGB.red / count, sumCh RGB.green / count,
    sumCh RGB.blue / count, sumCh RGB.alpha / count⟩

/-- `blur(image, radius)`.  `len(image[0])` raises `IndexError` on an
empty grid; an empty offset range (`radius < 0`) makes the very first
pixel divide by `count == 0` (`ZeroDivisionError`) before anything is
written; otherwise every pixel of the copy is computed from the
original image and then committed. -/
def blur (g : Grid) (radius : ℤ) : Except String Grid :=
  if g.length = 0 then .error "IndexError" else
  let height := g.length
  let width := (g.headD []).length
  if width ≠ 0 ∧ offsets radius = [] then .error "ZeroDivisionError" else
  .ok ((List.range height).map fun row => (List.range width).map fun col =>
    blurPixel g height width radius row col)

/-- Average of the clipped block with top-left corner `(br, bc)`:
divisor is the actual sample count. -/
def blockAvg (g : Grid) (h w step br bc : Nat) : RGB :=
  let rs := min step (h - br)
  let cs := min step (w - bc)
  let count := rs * cs
  let sumCh (f : RGB → Nat) : Nat :=
    ((List.range rs).map fun i =>
      ((List.range cs).map fun j => f (getPx g (br + i) (bc + j))).sum).sum
  ⟨sumCh RGB.red / count, sumCh RGB.green / count,
    sumCh RGB.blue / count, sumCh RGB.alpha / count⟩

/-- `pixellate(image, step)` for `step > 0`: the in-place block loop
reads a whole block before overwriting it and blocks are disjoint, so
each pixel ends at the average (over the original values) of the block
whose corner is at the largest multiples of `step` below its position. -/
def pixellate (g : Grid) (step : Nat) : Grid :=
  let height := g.length
  let width := (g.headD []).length
  (List.range height).map fun r => (List.range width).map fun c =>
    blockAvg g height width step (r / step * step) (c / step * step)

/-- Per-pixel action of `vignette` at squared distance `dsq` from the
center, with squared half-diagonal `hsq`: only pixels with
`alpha < 255` are touched, and each color channel is multiplied by the
factor `1 - dsq/hsq` and truncated.  The Python floats
`(math.sqrt dsq / math.sqrt hsq) ** 2` are modelled by the exact
rational `dsq / hsq`; this model is value-faithful only up to float
rounding and is used below for structural properties only. -/
def vignettePixel (hsq dsq : Nat) (p : RGB) : RGB :=
  if p.alpha < 255 then
    ⟨p.red * (hsq - dsq) / hsq, p.green * (hsq - dsq) / hsq,
      p.blue * (hsq - dsq) / hsq, p.alpha⟩
  else p

/-- `vignette(image)`.  On an empty grid `len(image[0])` raises
`IndexError`; on a `1 x 1` grid the half diagonal is `0.0` and the very
first `distance / half_diagonal` raises `ZeroDivisionError` (the factor
is computed before the alpha test, so this happens whenever at least
one pixel exists). -/
def vignette (g : Grid) : Except String Grid :=
  if g.length = 0 then .error "IndexError" else
  let height := g.length
  let width := (g.headD []).length
  let cr := height / 2
  let cc := width / 2
  let hsq := cr * cr + cc * cc
  if width ≠ 0 ∧ hsq = 0 then .error "ZeroDivisionError" else
  .ok ((List.range height).map fun (r : Nat) => (List.range width).map fun (c : Nat) =>
    vignettePixel hsq
      (((r : ℤ) - cr) * ((r : ℤ) - cr) + ((c : ℤ) - cc) * ((c : ℤ) - cc)).toNat
      (getPx g r c))

/-! ### Grid infrastructure -/

lemma getD_map_range {α : Type} (n : Nat) (f : Nat → α) (d : α) (i : Nat)
    (h : i < n) : ((List.range n).map f).getD i d = f i := by
  simp [List.getD_eq_getElem?_getD, List.getElem?_range h]

lemma getPx_mk (h w : Nat) (f : Nat → Nat → RGB) (r c : Nat) (hr : r < h)
    (hc : c < w) :
    getPx ((List.range h).map fun r => (List.range w).map fun c => f r c) r c
      = f r c := by
  unfold getPx
  rw [getD_map_range h _ _ r hr, getD_map_range w _ _ c hc]

lemma Rect_mk (h w : Nat) (f : Nat → Nat → RGB) :
    Rect ((List.range h).map fun r => (List.range w).map fun c => f r c) h w := by
  constructor
  · simp
  · intro row hrow
    simp only [List.mem_map, List.mem_range] at hrow
    obtain ⟨r, _, rfl⟩ := hrow
    simp

lemma Rect.width_headD {g : Grid} {h w : Nat} (hg : Rect g h w) (hh : 0 < h) :
    (g.headD []).length = w := by
  obtain ⟨hlen, hrow⟩ := hg
  cases g with
  | nil => simp at hlen; omega
  | cons row rest => exact hrow row (by simp)

lemma grid_ext {g1 g2 : Grid} {h w : Nat} (h1 : Rect g1 h w) (h2 : Rect g2 h w)
    (he : ∀ r < h, ∀ c < w, getPx g1 r c = getPx g2 r c) : g1 = g2 := by
  apply List.ext_getElem (by rw [h1.1, h2.1])
  intro r hr1 hr2
  apply List.ext_getElem
    (by rw [h1.2 _ (List.getElem_mem hr1), h2.2 _ (List.getElem_mem hr2)])
  intro c hc1 hc2
  have hrh : r < h := by rw [← h1.1]; exact hr1
  have hcw : c < w := by rw [← h1.2 _ (List.getElem_mem hr1)]; exact hc1
  have e1 : getPx g1 r c = g1[r][c] := by
    unfold getPx
    rw [List.getD_eq_getElem _ _ hr1, List.getD_eq_getElem _ _ hc1]
  have e2 : getPx g2 r c = g2[r][c] := by
    unfold getPx
    rw [List.getD_eq_getElem _ _ hr2, List.getD_eq_getElem _ _ hc2]
  rw [← e1, ← e2]
  exact he r hrh c hcw

lemma grid_eta {g : Grid} {h w : Nat} (hg : Rect g h w) :
    ((List.range h).map fun r => (List.range w).map fun c => getPx g r c) = g := by
  refine grid_ext (Rect_mk h w _) hg ?_
  intro r hr c hc
  exact getPx_mk h w _ r c hr hc

/-! ### flip -/

lemma flip_eq_mk {g : Grid} {h w : Nat} (hg : Rect g h w) (hh : 0 < h)
    (v : Bool) :
    flip g v = (List.range h).map fun row => (List.range w).map fun col =>
      if v then getPx g (h - 1 - row) col else getPx g row (w - 1 - col) := by
  unfold flip
  rw [hg.1, hg.width_headD hh]

lemma Rect_flip {g : Grid} {h w : Nat} (hg : Rect g h w) (hh : 0 < h)
    (v : Bool) : Rect (flip g v) h w := by
  rw [flip_eq_mk hg hh]
  exact Rect_mk h w _

lemma getPx_flip {g : Grid} {h w : Nat} (hg : Rect g h w) (hh : 0 < h)
    (v : Bool) (r c : Nat) (hr : r < h) (hc : c < w) :
    getPx (flip g v) r c =
      if v then getPx g (h - 1 - r) c else getPx g r (w - 1 - c) := by
  rw [flip_eq_mk hg hh]
  exact getPx_mk h w _ r c hr hc

/-- C6: for every well-formed grid and every fixed boolean axis `v`,
`flip(flip(g, v), v)` restores the original grid exactly. -/
theorem flip_involution {g : Grid} {h w : Nat} (hg : Rect g h w)
    (hh : 0 < h) (hw : 0 < w) (v : Bool) : flip (flip g v) v = g := by
  have hf : Rect (flip g v) h w := Rect_flip hg hh v
  refine grid_ext (Rect_flip hf hh v) hg ?_
  intro r hr c hc
  rw [getPx_flip hf hh v r c hr hc]
  cases v with
  | false =>
    have hcc : w - 1 - (w - 1 - c) = c := by omega
    rw [if_neg (by simp), getPx_flip hg hh false r (w - 1 - c) hr (by omega),
      if_neg (by simp), hcc]
  | true =>
    have hrr : h - 1 - (h - 1 - r) = r := by omega
    rw [if_pos (by simp), getPx_flip hg hh true (h - 1 - r) c (by omega) hc,
      if_pos (by simp), hrr]

/-- C6 witness: the involution at a concrete 2x2 grid and `v = true`. -/
theorem flip_involution_witness :
    flip (flip [[⟨1,2,3,4⟩, ⟨5,6,7,8⟩], [⟨9,10,11,12⟩, ⟨13,14,15,16⟩]] true) true
      = [[⟨1,2,3,4⟩, ⟨5,6,7,8⟩], [⟨9,10,11,12⟩, ⟨13,14,15,16⟩]] :=
  flip_involution (g := [[⟨1,2,3,4⟩, ⟨5,6,7,8⟩], [⟨9,10,11,12⟩, ⟨13,14,15,16⟩]])
    (h := 2) (w := 2) (by decide) (by decide) (by decide) true

/-! ### transpose and rotate -/

lemma transpose_eq_mk {g : Grid} {h w : Nat} (hg : Rect g h w) (hh : 0 < h) :
    transpose g = (List.range w).map fun r => (List.range h).map fun c =>
      getPx g c r := by
  unfold transpose
  rw [hg.1, hg.width_headD hh]

lemma Rect_transpose {g : Grid} {h w : Nat} (hg : Rect g h w) (hh : 0 < h) :
    Rect (transpose g) w h := by
  rw [transpose_eq_mk hg hh]
  exact Rect_mk w h _

lemma getPx_transpose {g : Grid} {h w : Nat} (hg : Rect g h w) (hh : 0 < h)
    (r c : Nat) (hr : r < w) (hc : c < h) :
    getPx (transpose g) r c = getPx g c r := by
  rw [transpose_eq_mk hg hh]
  exact getPx_mk w h _ r c hr hc

lemma Rect_rotl {g : Grid} {h w : Nat} (hg : Rect g h w) (hh : 0 < h)
    (hw : 0 < w) : Rect (rotate g false) w h := by
  have e : rotate g false = flip (transpose g) true := rfl
  rw [e]
  exact Rect_flip (Rect_transpose hg hh) hw true

lemma Rect_rotr {g : Grid} {h w : Nat} (hg : Rect g h w) (hh : 0 < h)
    (hw : 0 < w) : Rect (rotate g true) w h := by
  have e : rotate g true = transpose (flip g true) := rfl
  rw [e]
  exact Rect_transpose (Rect_flip hg hh true) hh

lemma getPx_rotl {g : Grid} {h w : Nat} (hg : Rect g h w) (hh : 0 < h)
    (hw : 0 < w) (r c : Nat) (hr : r < w) (hc : c < h) :
    getPx (rotate g false) r c = getPx g c (w - 1 - r) := by
  have e : rotate g false = flip (transpose g) true := rfl
  rw [e, getPx_flip (Rect_transpose hg hh) hw true r c hr hc, if_pos rfl]
  exact getPx_transpose hg hh (w - 1 - r) c (by omega) hc

lemma getPx_rotr {g : Grid} {h w : Nat} (hg : Rect g h w) (hh : 0 < h)
    (hw : 0 < w) (r c : Nat) (hr : r < w) (hc : c < h) :
    getPx (rotate g true) r c = getPx g (h - 1 - c) r := by
  have e : rotate g true = transpose (flip g true) := rfl
  rw [e, getPx_transpose (Rect_flip hg hh true) hh r c hr hc]
  rw [getPx_flip hg hh true c r hc hr, if_pos rfl]

/-- C7: left rotation is transpose then vertical flip and right rotation
is vertical flip then transpose, both turning an `h x w` grid into a
well-formed `w x h` grid; four left rotations restore the grid, and a
right rotation undoes a left rotation (and conversely). -/
theorem rotate_properties {g : Grid} {h w : Nat} (hg : Rect g h w)
    (hh : 0 < h) (hw : 0 < w) :
    rotate g false = flip (transpose g) true ∧
    rotate g true = transpose (flip g true) ∧
    Rect (rotate g false) w h ∧ Rect (rotate g true) w h ∧
    rotate (rotate (rotate (rotate g false) false) false) false = g ∧
    rotate (rotate g false) true = g ∧
    rotate (rotate g true) false = g := by
  have hR1 : Rect (rotate g false) w h := Rect_rotl hg hh hw
  have hR2 : Rect (rotate (rotate g false) false) h w := Rect_rotl hR1 hw hh
  have hR3 : Rect (rotate (rotate (rotate g false) false) false) w h :=
    Rect_rotl hR2 hh hw
  have hRr : Rect (rotate g true) w h := Rect_rotr hg hh hw
  refine ⟨rfl, rfl, hR1, hRr, ?_, ?_, ?_⟩
  · refine grid_ext (Rect_rotl hR3 hw hh) hg ?_
    intro r hr c hc
    rw [getPx_rotl hR3 hw hh r c (by omega) (by omega)]
    rw [getPx_rotl hR2 hh hw c (h - 1 - r) (by omega) (by omega)]
    rw [getPx_rotl hR1 hw hh (h - 1 - r) (w - 1 - c) (by omega) (by omega)]
    rw [getPx_rotl hg hh hw (w - 1 - c) (h - 1 - (h - 1 - r)) (by omega)
      (by omega)]
    have e1 : h - 1 - (h - 1 - r) = r := by omega
    have e2 : w - 1 - (w - 1 - c) = c := by omega
    rw [e1, e2]
  · refine grid_ext (Rect_rotr hR1 hw hh) hg ?_
    intro r hr c hc
    rw [getPx_rotr hR1 hw hh r c (by omega) (by omega)]
    rw [getPx_rotl hg hh hw (w - 1 - c) r (by omega) (by omega)]
    have e1 : w - 1 - (w - 1 - c) = c := by omega
    rw [e1]
  · refine grid_ext (Rect_rotl hRr hw hh) hg ?_
    intro r hr c hc
    rw [getPx_rotl hRr hw hh r c (by omega) (by omega)]
    rw [getPx_rotr hg hh hw c (h - 1 - r) (by omega) (by omega)]
    have e1 : h - 1 - (h - 1 - r) = r := by omega
    rw [e1]

/-- C7 witness: the rotation algebra at a concrete 1x2 grid. -/
theorem rotate_properties_witness :
    rotate [[⟨1,2,3,4⟩, ⟨5,6,7,8⟩]] false = flip (transpose [[⟨1,2,3,4⟩, ⟨5,6,7,8⟩]]) true ∧
    rotate [[⟨1,2,3,4⟩, ⟨5,6,7,8⟩]] true = transpose (flip [[⟨1,2,3,4⟩, ⟨5,6,7,8⟩]] true) ∧
    Rect (rotate [[⟨1,2,3,4⟩, ⟨5,6,7,8⟩]] false) 2 1 ∧
    Rect (rotate [[⟨1,2,3,4⟩, ⟨5,6,7,8⟩]] true) 2 1 ∧
    rotate (rotate (rotate (rotate [[⟨1,2,3,4⟩, ⟨5,6,7,8⟩]] false) false) false) false
      = [[⟨1,2,3,4⟩, ⟨5,6,7,8⟩]] ∧
    rotate (rotate [[⟨1,2,3,4⟩, ⟨5,6,7,8⟩]] false) true = [[⟨1,2,3,4⟩, ⟨5,6,7,8⟩]] ∧
    rotate (rotate [[⟨1,2,3,4⟩, ⟨5,6,7,8⟩]] true) false = [[⟨1,2,3,4⟩, ⟨5,6,7,8⟩]] :=
  rotate_properties (g := [[⟨1,2,3,4⟩, ⟨5,6,7,8⟩]]) (h := 1) (w := 2)
    (by decide) (by decide) (by decide)

/-! ### blur -/

lemma blur_eq_mk {g : Grid} {h w : Nat} {radius : ℤ} (hg : Rect g h w)
    (hh : 0 < h) (hr : offsets radius ≠ []) :
    blur g radius = .ok ((List.range h).map fun row =>
      (List.range w).map fun col => blurPixel g h w radius row col) := by
  simp only [blur, hg.1, hg.width_headD hh]
  rw [if_neg (by omega), if_neg (by exact fun hc => hr hc.2)]

lemma offsets_zero : offsets 0 = [0] := by decide

lemma blurPixel_zero {g : Grid} {h w : Nat} (r c : Nat) (hr : r < h)
    (hc : c < w) : blurPixel g h w 0 r c = getPx g r c := by
  have hcr : (clampI ((r : ℤ) + 0) ((h : ℤ) - 1)).toNat = r := by
    unfold clampI; omega
  have hcc : (clampI ((c : ℤ) + 0) ((w : ℤ) - 1)).toNat = c := by
    unfold clampI; omega
  simp only [blurPixel, offsets_zero, List.map_cons, List.map_nil,
    List.sum_cons, List.sum_nil, List.length_cons, List.length_nil, hcr, hcc]
  cases hpx : getPx g r c
  simp

/-- C10: `blur` with `radius = 0` raises no error and returns the grid
with every pixel unchanged: the clamped neighborhood is the pixel
itself, so each truncated average is the original channel value. -/
theorem blur_zero_radius_identity {g : Grid} {h w : Nat} (hg : Rect g h w)
    (hh : 0 < h) (hw : 0 < w) : blur g 0 = .ok g := by
  rw [blur_eq_mk hg hh (by decide)]
  congr 1
  refine grid_ext (Rect_mk h w _) hg ?_
  intro r hr c hc
  rw [getPx_mk h w _ r c hr hc]
  exact blurPixel_zero r c hr hc

/-- C10 witness: radius 0 on a concrete 1x2 grid. -/
theorem blur_zero_radius_identity_witness :
    blur [[⟨9,8,7,6⟩, ⟨1,2,3,4⟩]] 0 = .ok [[⟨9,8,7,6⟩, ⟨1,2,3,4⟩]] :=
  blur_zero_radius_identity (g := [[⟨9,8,7,6⟩, ⟨1,2,3,4⟩]]) (h := 1) (w := 2)
    (by decide) (by decide) (by decide)

/-- C3 (code bug evidence): calling `blur` with `radius = 0` — which
violates the documented precondition `radius > 0` — raises no
`InvalidParameter` error in the code: it succeeds and returns the grid
unchanged.  (No filter constructs `InvalidParameter` or
`DimensionError`; only `mono` asserts on its parameter.) -/
theorem blur_zero_radius_raises_no_error :
    blur [[⟨10,20,30,40⟩]] 0 = .ok [[⟨10,20,30,40⟩]] := rfl

/-! ### pixellate against the specification -/

/-- Spec-side description of `pixellate` (second definition, following
the specification's words, for the refinement theorem): the grid is
partitioned into non-overlapping `step x step` blocks whose top-left
corners are at `(i*step, j*step)`; a boundary block is clipped to the
grid; within a block all four channels are averaged with truncating
division by the actual sample count, and the averages are written to
every pixel of the block. -/
def pixellateSpec (g : Grid) (step : Nat) : Grid :=
  let h := g.length
  let w := (g.headD []).length
  (List.range h).map fun r => (List.range w).map fun c =>
    let br := step * (r / step)
    let bc := step * (c / step)
    let rows := Finset.Ico br (min (br + step) h)
    let cols := Finset.Ico bc (min (bc + step) w)
    let n := rows.card * cols.card
    ⟨(∑ i ∈ rows, ∑ j ∈ cols, (getPx g i j).red) / n,
      (∑ i ∈ rows, ∑ j ∈ cols, (getPx g i j).green) / n,
      (∑ i ∈ rows, ∑ j ∈ cols, (getPx g i j).blue) / n,
      (∑ i ∈ rows, ∑ j ∈ cols, (getPx g i j).alpha) / n⟩

lemma sum_map_range (n : Nat) (f : Nat → Nat) :
    ((List.range n).map f).sum = ∑ i ∈ Finset.range n, f i := by
  induction n with
  | zero => simp
  | succ n ih =>
    rw [List.range_succ, List.map_append, List.sum_append,
      Finset.sum_range_succ, ih]
    simp

lemma list_double_sum_eq (F : Nat → Nat → Nat) (br bc rs cs : Nat) :
    ((List.range rs).map fun i =>
      ((List.range cs).map fun j => F (br + i) (bc + j)).sum).sum
      = ∑ i ∈ Finset.Ico br (br + rs), ∑ j ∈ Finset.Ico bc (bc + cs), F i j := by
  rw [sum_map_range]
  rw [Finset.sum_Ico_eq_sum_range]
  simp only [Nat.add_sub_cancel_left]
  refine Finset.sum_congr rfl fun i _ => ?_
  rw [sum_map_range, Finset.sum_Ico_eq_sum_range]
  simp only [Nat.add_sub_cancel_left]

lemma blockAvg_eq_spec (g : Grid) (h w step br bc : Nat) (hbr : br < h)
    (hbc : bc < w) :
    blockAvg g h w step br bc =
      ⟨(∑ i ∈ Finset.Ico br (min (br + step) h),
          ∑ j ∈ Finset.Ico bc (min (bc + step) w), (getPx g i j).red) /
        ((Finset.Ico br (min (br + step) h)).card *
          (Finset.Ico bc (min (bc + step) w)).card),
       (∑ i ∈ Finset.Ico br (min (br + step) h),
          ∑ j ∈ Finset.Ico bc (min (bc + step) w), (getPx g i j).green) /
        ((Finset.Ico br (min (br + step) h)).card *
          (Finset.Ico bc (min (bc + step) w)).card),
       (∑ i ∈ Finset.Ico br (min (br + step) h),
          ∑ j ∈ Finset.Ico bc (min (bc + step) w), (getPx g i j).blue) /
        ((Finset.Ico br (min (br + step) h)).card *
          (Finset.Ico bc (min (bc + step) w)).card),
       (∑ i ∈ Finset.Ico br (min (br + step) h),
          ∑ j ∈ Finset.Ico bc (min (bc + step) w), (getPx g i j).alpha) /
        ((Finset.Ico br (min (br + step) h)).card *
          (Finset.Ico bc (min (bc + step) w)).card)⟩ := by
  have ebr : br + min step (h - br) = min (br + step) h := by omega
  have ebc : bc + min step (w - bc) = min (bc + step) w := by omega
  have ecr : (Finset.Ico br (min (br + step) h)).card = min step (h - br) := by
    rw [Nat.card_Ico]; omega
  have ecc : (Finset.Ico bc (min (bc + step) w)).card = min step (w - bc) := by
    rw [Nat.card_Ico]; omega
  simp only [blockAvg]
  rw [list_double_sum_eq (fun a b => (getPx g a b).red),
    list_double_sum_eq (fun a b => (getPx g a b).green),
    list_double_sum_eq (fun a b => (getPx g a b).blue),
    list_double_sum_eq (fun a b => (getPx g a b).alpha), ebr, ebc, ecr, ecc]

/-- C2: `pixellate(grid, step)` with `step > 0` on a well-formed grid
matches the spec: non-overlapping `step x step` blocks with corners at
multiples of `step`, clipped at the boundary (divisor = actual sample
count), all four channels averaged with truncating division, averages
written to every pixel of the block; and on a concrete 2x4 grid with
`step = 3` the first block is the 2x3 sub-block at columns 0-2 while
column 3 forms its own 2x1 block. -/
theorem pixellate_matches_block_average_spec {g : Grid} {h w step : Nat}
    (hg : Rect g h w) (hh : 0 < h) (hw : 0 < w) (hstep : 0 < step) :
    pixellate g step = pixellateSpec g step ∧
    pixellate
      [[⟨0,100,200,40⟩, ⟨1,101,201,41⟩, ⟨2,102,202,42⟩, ⟨3,103,203,43⟩],
       [⟨10,110,210,50⟩, ⟨11,111,211,51⟩, ⟨12,112,212,52⟩, ⟨13,113,213,53⟩]] 3
      = [[⟨6,106,206,46⟩, ⟨6,106,206,46⟩, ⟨6,106,206,46⟩, ⟨8,108,208,48⟩],
         [⟨6,106,206,46⟩, ⟨6,106,206,46⟩, ⟨6,106,206,46⟩, ⟨8,108,208,48⟩]] := by
  constructor
  · unfold pixellate pixellateSpec
    rw [hg.1, hg.width_headD hh]
    refine List.map_congr_left fun r hr => List.map_congr_left fun c hc => ?_
    rw [List.mem_range] at hr
    rw [List.mem_range] at hc
    have hbr : r / step * step < h :=
      Nat.lt_of_le_of_lt (Nat.div_mul_le_self r step) hr
    have hbc : c / step * step < w :=
      Nat.lt_of_le_of_lt (Nat.div_mul_le_self c step) hc
    rw [blockAvg_eq_spec g h w step _ _ hbr hbc]
    have e1 : r / step * step = step * (r / step) := Nat.mul_comm _ _
    have e2 : c / step * step = step * (c / step) := Nat.mul_comm _ _
    rw [e1, e2]
  · rfl

/-- C2 witness: the refinement equality at a concrete 2x2 grid with
`step = 2`, together with the concrete 2x4 scenario. -/
theorem pixellate_matches_block_average_spec_witness :
    pixellate [[⟨1,2,3,4⟩, ⟨5,6,7,8⟩], [⟨9,10,11,12⟩, ⟨13,14,15,16⟩]] 2 =
      pixellateSpec [[⟨1,2,3,4⟩, ⟨5,6,7,8⟩], [⟨9,10,11,12⟩, ⟨13,14,15,16⟩]] 2 ∧
    pixellate
      [[⟨0,100,200,40⟩, ⟨1,101,201,41⟩, ⟨2,102,202,42⟩, ⟨3,103,203,43⟩],
       [⟨10,110,210,50⟩, ⟨11,111,211,51⟩, ⟨12,112,212,52⟩, ⟨13,113,213,53⟩]] 3
      = [[⟨6,106,206,46⟩, ⟨6,106,206,46⟩, ⟨6,106,206,46⟩, ⟨8,108,208,48⟩],
         [⟨6,106,206,46⟩, ⟨6,106,206,46⟩, ⟨6,106,206,46⟩, ⟨8,108,208,48⟩]] :=
  pixellate_matches_block_average_spec
    (g := [[⟨1,2,3,4⟩, ⟨5,6,7,8⟩], [⟨9,10,11,12⟩, ⟨13,14,15,16⟩]])
    (h := 2) (w := 2) (by decide) (by decide) (by decide) (by decide)

/-! ### blur against the specification -/

/-- Spec-side description of `blur` (second definition, following the
specification's words, for the refinement theorem): each pixel becomes
the average of all four channels over the square neighborhood
`[r-radius, r+radius] x [c-radius, c+radius]`, out-of-bounds
coordinates clamped to the nearest in-bounds row/column (edge
replication), with truncating division by the constant sample count
`(2*radius+1)^2`, every sample read from the pre-blur grid. -/
def blurSpec (g : Grid) (radius : ℤ) : Grid :=
  let h := g.length
  let w := (g.headD []).length
  (List.range h).map fun (r : Nat) => (List.range w).map fun (c : Nat) =>
    let n := ((2 * radius + 1) ^ 2).toNat
    ⟨(∑ i ∈ Finset.Icc ((r : ℤ) - radius) ((r : ℤ) + radius),
        ∑ j ∈ Finset.Icc ((c : ℤ) - radius) ((c : ℤ) + radius),
          (getPx g (clampI i ((h : ℤ) - 1)).toNat
            (clampI j ((w : ℤ) - 1)).toNat).red) / n,
     (∑ i ∈ Finset.Icc ((r : ℤ) - radius) ((r : ℤ) + radius),
        ∑ j ∈ Finset.Icc ((c : ℤ) - radius) ((c : ℤ) + radius),
          (getPx g (clampI i ((h : ℤ) - 1)).toNat
            (clampI j ((w : ℤ) - 1)).toNat).green) / n,
     (∑ i ∈ Finset.Icc ((r : ℤ) - radius) ((r : ℤ) + radius),
        ∑ j ∈ Finset.Icc ((c : ℤ) - radius) ((c : ℤ) + radius),
          (getPx g (clampI i ((h : ℤ) - 1)).toNat
            (clampI j ((w : ℤ) - 1)).toNat).blue) / n,
     (∑ i ∈ Finset.Icc ((r : ℤ) - radius) ((r : ℤ) + radius),
        ∑ j ∈ Finset.Icc ((c : ℤ) - radius) ((c : ℤ) + radius),
          (getPx g (clampI i ((h : ℤ) - 1)).toNat
            (clampI j ((w : ℤ) - 1)).toNat).alpha) / n⟩

lemma sum_range_eq_sum_Icc (G : ℤ → Nat) (a : ℤ) (n : Nat) :
    ∑ k ∈ Finset.range n, G (a + k) = ∑ x ∈ Finset.Icc a (a + n - 1), G x := by
  refine Finset.sum_nbij' (fun (k : Nat) => a + k) (fun x => (x - a).toNat)
    ?_ ?_ ?_ ?_ ?_
  · intro k hk
    simp only [Finset.mem_range] at hk
    simp only [Finset.mem_Icc]
    omega
  · intro x hx
    simp only [Finset.mem_Icc] at hx
    simp only [Finset.mem_range]
    omega
  · intro k hk
    simp only [Finset.mem_range] at hk
    simp only []
    omega
  · intro x hx
    simp only [Finset.mem_Icc] at hx
    simp only []
    omega
  · intro k _
    rfl

lemma offsets_length (radius : ℤ) :
    (offsets radius).length = (2 * radius + 1).toNat := by
  unfold offsets
  rw [List.length_map, List.length_range]

lemma sum_map_offsets (radius : ℤ) (hr : 0 ≤ radius) (r : ℤ) (G : ℤ → Nat) :
    ((offsets radius).map fun i => G (r + i)).sum
      = ∑ a ∈ Finset.Icc (r - radius) (r + radius), G a := by
  have e0 : (offsets radius).map (fun i => G (r + i))
      = (List.range (2 * radius + 1).toNat).map
          (fun (k : Nat) => G ((r - radius) + (k : ℤ))) := by
    unfold offsets
    rw [List.map_map]
    refine List.map_congr_left fun k _ => ?_
    simp only [Function.comp]
    congr 1
    omega
  rw [e0, sum_map_range, sum_range_eq_sum_Icc]
  have e2 : r - radius + ((2 * radius + 1).toNat : ℤ) - 1 = r + radius := by
    omega
  rw [e2]

lemma sum_map_offsets2 (radius : ℤ) (hr : 0 ≤ radius) (r c : ℤ)
    (F : ℤ → ℤ → Nat) :
    ((offsets radius).map fun i =>
      ((offsets radius).map fun j => F (r + i) (c + j)).sum).sum
      = ∑ a ∈ Finset.Icc (r - radius) (r + radius),
          ∑ b ∈ Finset.Icc (c - radius) (c + radius), F a b := by
  rw [sum_map_offsets radius hr r
    (fun a => ((offsets radius).map fun j => F a (c + j)).sum)]
  exact Finset.sum_congr rfl fun a _ => sum_map_offsets radius hr c (F a)

lemma blurPixel_eq_spec (g : Grid) (h w : Nat) (radius : ℤ)
    (hr : 0 ≤ radius) (row col : Nat) :
    blurPixel g h w radius row col =
      ⟨(∑ i ∈ Finset.Icc ((row : ℤ) - radius) ((row : ℤ) + radius),
          ∑ j ∈ Finset.Icc ((col : ℤ) - radius) ((col : ℤ) + radius),
            (getPx g (clampI i ((h : ℤ) - 1)).toNat
              (clampI j ((w : ℤ) - 1)).toNat).red) /
          ((2 * radius + 1) ^ 2).toNat,
       (∑ i ∈ Finset.Icc ((row : ℤ) - radius) ((row : ℤ) + radius),
          ∑ j ∈ Finset.Icc ((col : ℤ) - radius) ((col : ℤ) + radius),
            (getPx g (clampI i ((h : ℤ) - 1)).toNat
              (clampI j ((w : ℤ) - 1)).toNat).green) /
          ((2 * radius + 1) ^ 2).toNat,
       (∑ i ∈ Finset.Icc ((row : ℤ) - radius) ((row : ℤ) + radius),
          ∑ j ∈ Finset.Icc ((col : ℤ) - radius) ((col : ℤ) + radius),
            (getPx g (clampI i ((h : ℤ) - 1)).toNat
              (clampI j ((w : ℤ) - 1)).toNat).blue) /
          ((2 * radius + 1) ^ 2).toNat,
       (∑ i ∈ Finset.Icc ((row : ℤ) - radius) ((row : ℤ) + radius),
          ∑ j ∈ Finset.Icc ((col : ℤ) - radius) ((col : ℤ) + radius),
            (getPx g (clampI i ((h : ℤ) - 1)).toNat
              (clampI j ((w : ℤ) - 1)).toNat).alpha) /
          ((2 * radius + 1) ^ 2).toNat⟩ := by
  have ecount : (offsets radius).length * (offsets radius).length
      = ((2 * radius + 1) ^ 2).toNat := by
    rw [offsets_length]
    have h2 : (((2 * radius + 1).toNat : ℤ)) = 2 * radius + 1 := by omega
    rw [← h2, ← Nat.cast_pow, Int.toNat_natCast, Nat.pow_two,
      Int.toNat_natCast]
  simp only [blurPixel, ecount]
  rw [sum_map_offsets2 radius hr _ _ (fun a b =>
      (getPx g (clampI a ((h : ℤ) - 1)).toNat
        (clampI b ((w : ℤ) - 1)).toNat).red),
    sum_map_offsets2 radius hr _ _ (fun a b =>
      (getPx g (clampI a ((h : ℤ) - 1)).toNat
        (clampI b ((w : ℤ) - 1)).toNat).green),
    sum_map_offsets2 radius hr _ _ (fun a b =>
      (getPx g (clampI a ((h : ℤ) - 1)).toNat
        (clampI b ((w : ℤ) - 1)).toNat).blue),
    sum_map_offsets2 radius hr _ _ (fun a b =>
      (getPx g (clampI a ((h : ℤ) - 1)).toNat
        (clampI b ((w : ℤ) - 1)).toNat).alpha)]

/-- C1: `blur(grid, radius)` with `radius > 0` on a well-formed grid
matches the spec: every pixel of the result is the truncated average of
all four channels over the clamped square neighborhood (edge
replication), with constant divisor `(2*radius+1)^2`, all samples taken
from the pre-blur snapshot. -/
theorem blur_matches_neighborhood_average_spec {g : Grid} {h w : Nat}
    {radius : ℤ} (hg : Rect g h w) (hh : 0 < h) (hw : 0 < w)
    (hr : 0 < radius) : blur g radius = .ok (blurSpec g radius) := by
  have hne : offsets radius ≠ [] := by
    have : (offsets radius).length = (2 * radius + 1).toNat :=
      offsets_length radius
    intro hcon
    rw [hcon] at this
    simp at this
    omega
  rw [blur_eq_mk hg hh hne]
  unfold blurSpec
  rw [hg.1, hg.width_headD hh]
  congr 1
  refine List.map_congr_left fun r hr2 => List.map_congr_left fun c hc2 => ?_
  exact blurPixel_eq_spec g h w radius (by omega) r c

/-- C1 witness: the refinement equality at a concrete 2x2 grid with
radius 1. -/
theorem blur_matches_neighborhood_average_spec_witness :
    blur [[⟨1,2,3,4⟩, ⟨5,6,7,8⟩], [⟨9,10,11,12⟩, ⟨13,14,15,16⟩]] 1 =
      .ok (blurSpec [[⟨1,2,3,4⟩, ⟨5,6,7,8⟩], [⟨9,10,11,12⟩, ⟨13,14,15,16⟩]] 1) :=
  blur_matches_neighborhood_average_spec
    (g := [[⟨1,2,3,4⟩, ⟨5,6,7,8⟩], [⟨9,10,11,12⟩, ⟨13,14,15,16⟩]])
    (h := 2) (w := 2) (by decide) (by decide) (by decide) (by decide)

/-! ### Rectangularity preservation -/

lemma Rect_mono {g : Grid} {h w : Nat} (hg : Rect g h w) (sepia : Bool) :
    Rect (mono g sepia) h w := by
  constructor
  · simp [mono, hg.1]
  · intro row hrow
    simp only [mono, List.mem_map] at hrow
    obtain ⟨orig, horig, rfl⟩ := hrow
    simp [hg.2 orig horig]

lemma pixellate_eq_mk {g : Grid} {h w step : Nat} (hg : Rect g h w)
    (hh : 0 < h) :
    pixellate g step = (List.range h).map fun r => (List.range w).map fun c =>
      blockAvg g h w step (r / step * step) (c / step * step) := by
  unfold pixellate
  rw [hg.1, hg.width_headD hh]

/-- C9: every filter preserves the rectangular invariant: `mono`,
`flip`, `blur` (when it returns), `pixellate` and `vignette` (when it
returns) keep an `h x w` grid `h x w`, while `transpose` and `rotate`
replace the whole row structure, turning it into a well-formed
`w x h` grid. -/
theorem filters_preserve_rectangularity {g : Grid} {h w : Nat}
    (hg : Rect g h w) (hh : 0 < h) (hw : 0 < w) :
    (∀ sepia, Rect (mono g sepia) h w) ∧
    (∀ v, Rect (flip g v) h w) ∧
    Rect (transpose g) w h ∧
    (∀ rt, Rect (rotate g rt) w h) ∧
    (∀ radius : ℤ, 0 < radius → ∀ gb, blur g radius = .ok gb → Rect gb h w) ∧
    (∀ step, 0 < step → Rect (pixellate g step) h w) ∧
    (∀ gv, vignette g = .ok gv → Rect gv h w) := by
  refine ⟨Rect_mono hg, fun v => Rect_flip hg hh v, Rect_transpose hg hh,
    ?_, ?_, ?_, ?_⟩
  · intro rt
    cases rt with
    | false => exact Rect_rotl hg hh hw
    | true => exact Rect_rotr hg hh hw
  · intro radius hr gb hb
    have hne : offsets radius ≠ [] := by
      intro hcon
      have := offsets_length radius
      rw [hcon] at this
      simp at this
      omega
    rw [blur_eq_mk hg hh hne] at hb
    injection hb with hb
    rw [← hb]
    exact Rect_mk h w _
  · intro step _
    rw [pixellate_eq_mk hg hh]
    exact Rect_mk h w _
  · intro gv hv
    unfold vignette at hv
    rw [hg.1, hg.width_headD hh] at hv
    rw [if_neg (by omega)] at hv
    by_cases hsq : h / 2 * (h / 2) + w / 2 * (w / 2) = 0
    · rw [if_pos ⟨by omega, hsq⟩] at hv
      exact absurd hv (by simp)
    · rw [if_neg (by intro hcon; exact hsq hcon.2)] at hv
      injection hv with hv
      rw [← hv]
      exact Rect_mk h w _

/-- C9 witness: preservation at a concrete 1x2 grid (dimensions become
2x1 under transpose and rotate). -/
theorem filters_preserve_rectangularity_witness :
    Rect (mono [[⟨1,2,3,4⟩, ⟨5,6,7,8⟩]] true) 1 2 ∧
    Rect (flip [[⟨1,2,3,4⟩, ⟨5,6,7,8⟩]] true) 1 2 ∧
    Rect (transpose [[⟨1,2,3,4⟩, ⟨5,6,7,8⟩]]) 2 1 ∧
    Rect (rotate [[⟨1,2,3,4⟩, ⟨5,6,7,8⟩]] false) 2 1 ∧
    Rect (pixellate [[⟨1,2,3,4⟩, ⟨5,6,7,8⟩]] 2) 1 2 := by
  obtain ⟨m, f, t, r, _, p, _⟩ := filters_preserve_rectangularity
    (g := [[⟨1,2,3,4⟩, ⟨5,6,7,8⟩]]) (h := 1) (w := 2)
    (by decide) (by decide) (by decide)
  exact ⟨m true, f true, t, r false, p 2 (by decide)⟩

/-! ### Bounds on the binary64 rounding model -/

lemma pw2_eq_natCast (k : Nat) : pw2 k = ((2 ^ k : ℕ) : ℚ) := rfl

lemma pw2_eq_zpow (k : Nat) : pw2 k = (2 : ℚ) ^ (k : ℤ) := by
  rw [pw2_eq_natCast]
  push_cast
  rw [zpow_natCast]

lemma pw2_pos (k : Nat) : 0 < pw2 k := by
  rw [pw2_eq_natCast]
  positivity

lemma rhe_le (x : ℚ) : (rhe x : ℚ) ≤ x + 1/2 := by
  unfold rhe
  have hf : (⌊x⌋ : ℚ) ≤ x := Int.floor_le x
  have hf2 : x < ⌊x⌋ + 1 := Int.lt_floor_add_one x
  by_cases h1 : x - ⌊x⌋ < 1/2
  · rw [if_pos h1]
    linarith
  · rw [if_neg h1]
    by_cases h2 : 1/2 < x - ⌊x⌋
    · rw [if_pos h2]
      push_cast
      linarith
    · rw [if_neg h2]
      have hx : x - ⌊x⌋ = 1/2 := by linarith
      by_cases h3 : Even (⌊x⌋)
      · rw [if_pos h3]
        linarith
      · rw [if_neg h3]
        push_cast
        linarith

lemma rhe_ge (x : ℚ) : x - 1/2 ≤ (rhe x : ℚ) := by
  unfold rhe
  have hf : (⌊x⌋ : ℚ) ≤ x := Int.floor_le x
  have hf2 : x < ⌊x⌋ + 1 := Int.lt_floor_add_one x
  by_cases h1 : x - ⌊x⌋ < 1/2
  · rw [if_pos h1]
    linarith
  · rw [if_neg h1]
    by_cases h2 : 1/2 < x - ⌊x⌋
    · rw [if_pos h2]
      push_cast
      linarith
    · rw [if_neg h2]
      by_cases h3 : Even (⌊x⌋)
      · rw [if_pos h3]
        linarith
      · rw [if_neg h3]
        push_cast
        linarith

lemma roundPos_eq_zpow (q : ℚ) :
    roundPos q = (rhe (q * (2 : ℚ) ^ (52 - Int.log 2 q)) : ℚ) *
      (2 : ℚ) ^ (Int.log 2 q - 52) := by
  unfold roundPos
  by_cases hl : 52 ≤ Int.log 2 q
  · rw [if_pos hl]
    have ha : (((Int.log 2 q - 52).toNat : ℤ)) = Int.log 2 q - 52 := by omega
    rw [pw2_eq_zpow, ha, div_eq_mul_inv, ← zpow_neg, neg_sub]
  · rw [if_neg hl]
    have hb : (((52 - Int.log 2 q).toNat : ℤ)) = 52 - Int.log 2 q := by omega
    rw [pw2_eq_zpow, hb, div_eq_mul_inv, ← zpow_neg, neg_sub]

lemma two_zpow_log_le {q : ℚ} (hq : 0 < q) :
    (2 : ℚ) ^ (Int.log 2 q) ≤ q := by
  have h := Int.zpow_log_le_self (b := 2) (R := ℚ) (by norm_num) hq
  simpa using h

lemma zpow_mul_zpow_neg (a : ℤ) : (2 : ℚ) ^ (52 - a) * (2 : ℚ) ^ (a - 52) = 1 := by
  rw [← zpow_add₀ (by norm_num : (2:ℚ) ≠ 0)]
  norm_num

lemma roundPos_le {q : ℚ} (hq : 0 < q) : roundPos q ≤ q + q / pw2 53 := by
  rw [roundPos_eq_zpow]
  have h2l := two_zpow_log_le hq
  have hpos : (0 : ℚ) < (2 : ℚ) ^ (Int.log 2 q - 52) := by positivity
  have h1 : (rhe (q * (2 : ℚ) ^ (52 - Int.log 2 q)) : ℚ) ≤
      q * (2 : ℚ) ^ (52 - Int.log 2 q) + 1/2 := rhe_le _
  have step1 : (rhe (q * (2 : ℚ) ^ (52 - Int.log 2 q)) : ℚ) *
      (2 : ℚ) ^ (Int.log 2 q - 52) ≤
      (q * (2 : ℚ) ^ (52 - Int.log 2 q) + 1/2) *
        (2 : ℚ) ^ (Int.log 2 q - 52) :=
    mul_le_mul_of_nonneg_right h1 hpos.le
  have key : (q * (2 : ℚ) ^ (52 - Int.log 2 q) + 1/2) *
      (2 : ℚ) ^ (Int.log 2 q - 52) = q + (2 : ℚ) ^ (Int.log 2 q - 52) / 2 := by
    rw [add_mul, mul_assoc, zpow_mul_zpow_neg]
    ring
  have tail : (2 : ℚ) ^ (Int.log 2 q - 52) / 2 ≤ q / pw2 53 := by
    rw [pw2_eq_zpow]
    have e1 : (2 : ℚ) ^ (Int.log 2 q - 52) / 2 =
        (2 : ℚ) ^ (Int.log 2 q) * ((2 : ℚ) ^ ((53 : ℕ) : ℤ))⁻¹ := by
      rw [← zpow_neg, ← zpow_add₀ (by norm_num : (2:ℚ) ≠ 0)]
      rw [div_eq_mul_inv, ← zpow_neg_one, ← zpow_add₀ (by norm_num : (2:ℚ) ≠ 0)]
      congr 1
      omega
    rw [e1, div_eq_mul_inv]
    exact mul_le_mul_of_nonneg_right h2l (by positivity)
  calc (rhe (q * (2 : ℚ) ^ (52 - Int.log 2 q)) : ℚ) *
      (2 : ℚ) ^ (Int.log 2 q - 52)
      ≤ q + (2 : ℚ) ^ (Int.log 2 q - 52) / 2 := by rw [← key]; exact step1
    _ ≤ q + q / pw2 53 := by linarith

lemma roundPos_ge {q : ℚ} (hq : 0 < q) : q - q / pw2 53 ≤ roundPos q := by
  rw [roundPos_eq_zpow]
  have h2l := two_zpow_log_le hq
  have hpos : (0 : ℚ) < (2 : ℚ) ^ (Int.log 2 q - 52) := by positivity
  have h1 : q * (2 : ℚ) ^ (52 - Int.log 2 q) - 1/2 ≤
      (rhe (q * (2 : ℚ) ^ (52 - Int.log 2 q)) : ℚ) := rhe_ge _
  have step1 : (q * (2 : ℚ) ^ (52 - Int.log 2 q) - 1/2) *
      (2 : ℚ) ^ (Int.log 2 q - 52) ≤
      (rhe (q * (2 : ℚ) ^ (52 - Int.log 2 q)) : ℚ) *
        (2 : ℚ) ^ (Int.log 2 q - 52) :=
    mul_le_mul_of_nonneg_right h1 hpos.le
  have key : (q * (2 : ℚ) ^ (52 - Int.log 2 q) - 1/2) *
      (2 : ℚ) ^ (Int.log 2 q - 52) = q - (2 : ℚ) ^ (Int.log 2 q - 52) / 2 := by
    rw [sub_mul, mul_assoc, zpow_mul_zpow_neg]
    ring
  have tail : (2 : ℚ) ^ (Int.log 2 q - 52) / 2 ≤ q / pw2 53 := by
    rw [pw2_eq_zpow]
    have e1 : (2 : ℚ) ^ (Int.log 2 q - 52) / 2 =
        (2 : ℚ) ^ (Int.log 2 q) * ((2 : ℚ) ^ ((53 : ℕ) : ℤ))⁻¹ := by
      rw [← zpow_neg, ← zpow_add₀ (by norm_num : (2:ℚ) ≠ 0)]
      rw [div_eq_mul_inv, ← zpow_neg_one, ← zpow_add₀ (by norm_num : (2:ℚ) ≠ 0)]
      congr 1
      omega
    rw [e1, div_eq_mul_inv]
    exact mul_le_mul_of_nonneg_right h2l (by positivity)
  calc q - q / pw2 53 ≤ q - (2 : ℚ) ^ (Int.log 2 q - 52) / 2 := by linarith
    _ ≤ _ := by rw [← key]; exact step1

lemma fl_zero : fl 0 = 0 := by
  unfold fl
  norm_num

lemma fl_le_mul {q : ℚ} (hq : 0 ≤ q) : fl q ≤ q * (1 + 1 / pw2 53) := by
  rcases eq_or_lt_of_le hq with heq | hpos
  · rw [← heq, fl_zero]
    norm_num
  · unfold fl
    rw [if_neg (by linarith), if_neg (by linarith)]
    have := roundPos_le hpos
    have e : q * (1 + 1 / pw2 53) = q + q / pw2 53 := by ring
    rw [e]
    exact this

lemma fl_ge_mul {q : ℚ} (hq : 0 ≤ q) : q * (1 - 1 / pw2 53) ≤ fl q := by
  rcases eq_or_lt_of_le hq with heq | hpos
  · rw [← heq, fl_zero]
    norm_num
  · unfold fl
    rw [if_neg (by linarith), if_neg (by linarith)]
    have := roundPos_ge hpos
    have e : q * (1 - 1 / pw2 53) = q - q / pw2 53 := by ring
    rw [e]
    exact this

lemma fl_nonneg {q : ℚ} (hq : 0 ≤ q) : 0 ≤ fl q := by
  have h1 := fl_ge_mul hq
  have h2 : (0 : ℚ) ≤ 1 - 1 / pw2 53 := by
    have := pw2_pos 53
    rw [pw2_eq_natCast] at *
    norm_num
  nlinarith

/-! ### Exact rounding facts and brightness bounds -/

lemma pytrunc_le {q : ℚ} (n : Nat) (h : q < n + 1) : pytrunc q ≤ n := by
  unfold pytrunc
  have hfl : ⌊q⌋ < (n : ℤ) + 1 := by
    rw [Int.floor_lt]
    push_cast
    exact h
  omega

lemma pytrunc_natCast (n : Nat) : pytrunc n = n := by
  unfold pytrunc
  simp

lemma rhe_eq_of_near (x : ℚ) (K : ℤ) (h : |x - K| < 1/2) : rhe x = K := by
  simp only [rhe]
  rw [abs_sub_lt_iff] at h
  obtain ⟨h1, h2⟩ := h
  rcases le_or_lt (K : ℚ) x with hxk | hxk
  · have hfl : ⌊x⌋ = K := by
      rw [Int.floor_eq_iff]
      constructor
      · exact hxk
      · push_cast
        linarith
    rw [hfl, if_pos (by linarith)]
  · have hfl : ⌊x⌋ = K - 1 := by
      rw [Int.floor_eq_iff]
      push_cast
      constructor <;> linarith
    rw [hfl]
    rw [if_neg (by push_cast; linarith), if_pos (by push_cast; linarith)]
    omega

lemma fl_eq_nat_of_near {q : ℚ} {k : Nat} (hq : 0 < q) (hk : 1 ≤ k)
    (hql : q < pw2 52) (hnear : |q - k| ≤ q / pw2 54) : fl q = k := by
  have hl52 : Int.log 2 q < 52 := by
    by_contra hcon
    push_neg at hcon
    have hc1 : pw2 52 ≤ (2 : ℚ) ^ (Int.log 2 q) := by
      rw [pw2_eq_zpow]
      exact zpow_le_zpow_right₀ (by norm_num) hcon
    have hc2 : (2 : ℚ) ^ (Int.log 2 q) ≤ q := two_zpow_log_le hq
    linarith
  have hup : q < (2 : ℚ) ^ (Int.log 2 q + 1) := by
    have := Int.lt_zpow_succ_log_self (b := 2) (R := ℚ) (by norm_num) q
    simpa using this
  have hflq : fl q = roundPos q := by
    unfold fl
    rw [if_neg (by linarith), if_neg (by linarith)]
  rw [hflq, roundPos_eq_zpow]
  set l := Int.log 2 q with hldef
  have hs : (0 : ℚ) < (2 : ℚ) ^ ((52 : ℤ) - l) := by positivity
  set K : ℤ := (k : ℤ) * 2 ^ ((52 - l).toNat) with hKdef
  have hKcast : (K : ℚ) = (k : ℚ) * (2 : ℚ) ^ ((52 : ℤ) - l) := by
    rw [hKdef]
    push_cast
    congr 1
    rw [← zpow_natCast]
    congr 1
    omega
  have hrheK : rhe (q * (2 : ℚ) ^ ((52 : ℤ) - l)) = K := by
    apply rhe_eq_of_near
    rw [hKcast]
    have e1 : q * (2 : ℚ) ^ ((52 : ℤ) - l) - (k : ℚ) * (2 : ℚ) ^ ((52 : ℤ) - l)
        = (q - k) * (2 : ℚ) ^ ((52 : ℤ) - l) := by ring
    rw [e1, abs_mul, abs_of_pos hs]
    have hb1 : |q - (k : ℚ)| * (2 : ℚ) ^ ((52 : ℤ) - l)
        ≤ (q / pw2 54) * (2 : ℚ) ^ ((52 : ℤ) - l) :=
      mul_le_mul_of_nonneg_right hnear hs.le
    have hb2 : (q / pw2 54) * (2 : ℚ) ^ ((52 : ℤ) - l) < 1/2 := by
      rw [pw2_eq_zpow, div_eq_mul_inv, ← zpow_neg]
      have e2 : q * (2 : ℚ) ^ (-((54 : ℕ) : ℤ)) * (2 : ℚ) ^ ((52 : ℤ) - l)
          = q * (2 : ℚ) ^ (-(l + 2)) := by
        rw [mul_assoc, ← zpow_add₀ (by norm_num : (2:ℚ) ≠ 0)]
        congr 2
        omega
      rw [e2]
      have hlt : q * (2 : ℚ) ^ (-(l + 2)) < (2 : ℚ) ^ (l + 1) * (2 : ℚ) ^ (-(l + 2)) :=
        mul_lt_mul_of_pos_right hup (by positivity)
      have e3 : (2 : ℚ) ^ (l + 1) * (2 : ℚ) ^ (-(l + 2)) = 1/2 := by
        rw [← zpow_add₀ (by norm_num : (2:ℚ) ≠ 0)]
        have e4 : l + 1 + -(l + 2) = -1 := by omega
        rw [e4]
        norm_num
      linarith
    linarith
  rw [hrheK, hKcast]
  have efin : (k : ℚ) * (2 : ℚ) ^ ((52 : ℤ) - l) * (2 : ℚ) ^ (l - 52) = k := by
    rw [mul_assoc, zpow_mul_zpow_neg]
    ring
  exact efin

lemma c03_nonneg : (0 : ℚ) ≤ c03 := by with_unfolding_all decide

lemma c06_nonneg : (0 : ℚ) ≤ c06 := by with_unfolding_all decide

lemma c01_nonneg : (0 : ℚ) ≤ c01 := by with_unfolding_all decide

lemma c04_nonneg : (0 : ℚ) ≤ c04 := by with_unfolding_all decide

lemma c03_step : c03 * (1 + 1/pw2 53) ≤ 3/10 * (1000001/1000000) := by
  with_unfolding_all decide

lemma c06_step : c06 * (1 + 1/pw2 53) ≤ 6/10 * (1000001/1000000) := by
  with_unfolding_all decide

lemma c01_step : c01 * (1 + 1/pw2 53) ≤ 1/10 * (1000001/1000000) := by
  with_unfolding_all decide

lemma stage_bound : (1 + 1/pw2 53 : ℚ) ≤ 1000001/1000000 := by
  with_unfolding_all decide

lemma fl_mul_cast_le {c B : ℚ} (n : Nat) (hc : 0 ≤ c)
    (hB : c * (1 + 1/pw2 53) ≤ B) : fl (c * n) ≤ B * n := by
  have h0 : 0 ≤ c * (n : ℚ) := mul_nonneg hc (Nat.cast_nonneg n)
  calc fl (c * n) ≤ (c * n) * (1 + 1/pw2 53) := fl_le_mul h0
    _ = (c * (1 + 1/pw2 53)) * n := by ring
    _ ≤ B * n := mul_le_mul_of_nonneg_right hB (Nat.cast_nonneg n)

lemma fl_add_le {x y Bx By : ℚ} (hx : 0 ≤ x) (hy : 0 ≤ y) (hBx : x ≤ Bx)
    (hBy : y ≤ By) :
    fl (x + y) ≤ (Bx + By) * (1000001/1000000) := by
  calc fl (x + y) ≤ (x + y) * (1 + 1/pw2 53) := fl_le_mul (add_nonneg hx hy)
    _ ≤ (x + y) * (1000001/1000000) :=
      mul_le_mul_of_nonneg_left stage_bound (add_nonneg hx hy)
    _ ≤ (Bx + By) * (1000001/1000000) :=
      mul_le_mul_of_nonneg_right (add_le_add hBx hBy) (by norm_num)

/-- The central bound: whenever the exact weighted sum (with a relative
slack of `4e-6` covering the three roundings) is below `10 * (M + 1)`,
the float brightness is at most `M`. -/
lemma brightnessF_le (r g b M : Nat)
    (hcond : (3 * (r : ℚ) + 6 * (g : ℚ) + (b : ℚ)) * (1000004/1000000)
      < 10 * ((M : ℚ) + 1)) :
    brightnessF r g b ≤ M := by
  unfold brightnessF
  have hr0 : (0 : ℚ) ≤ (r : ℚ) := Nat.cast_nonneg r
  have hg0 : (0 : ℚ) ≤ (g : ℚ) := Nat.cast_nonneg g
  have hb0 : (0 : ℚ) ≤ (b : ℚ) := Nat.cast_nonneg b
  have hA : fl (c03 * r) ≤ (3/10 * (1000001/1000000)) * r :=
    fl_mul_cast_le r c03_nonneg c03_step
  have hB : fl (c06 * g) ≤ (6/10 * (1000001/1000000)) * g :=
    fl_mul_cast_le g c06_nonneg c06_step
  have hC : fl (c01 * b) ≤ (1/10 * (1000001/1000000)) * b :=
    fl_mul_cast_le b c01_nonneg c01_step
  have hA0 : 0 ≤ fl (c03 * r) := fl_nonneg (mul_nonneg c03_nonneg hr0)
  have hB0 : 0 ≤ fl (c06 * g) := fl_nonneg (mul_nonneg c06_nonneg hg0)
  have hC0 : 0 ≤ fl (c01 * b) := fl_nonneg (mul_nonneg c01_nonneg hb0)
  have hAB : fl (fl (c03 * r) + fl (c06 * g)) ≤
      ((3/10 * (1000001/1000000)) * r + (6/10 * (1000001/1000000)) * g) *
        (1000001/1000000) :=
    fl_add_le hA0 hB0 hA hB
  have hAB0 : 0 ≤ fl (fl (c03 * r) + fl (c06 * g)) :=
    fl_nonneg (add_nonneg hA0 hB0)
  have hS : fl (fl (fl (c03 * r) + fl (c06 * g)) + fl (c01 * b)) ≤
      (((3/10 * (1000001/1000000)) * r + (6/10 * (1000001/1000000)) * g) *
          (1000001/1000000) + (1/10 * (1000001/1000000)) * b) *
        (1000001/1000000) :=
    fl_add_le hAB0 hC0 hAB hC
  have hpoly : (((3/10 * (1000001/1000000)) * (r : ℚ) +
        (6/10 * (1000001/1000000)) * g) * (1000001/1000000) +
        (1/10 * (1000001/1000000)) * b) * (1000001/1000000) ≤
      (3 * (r : ℚ) + 6 * (g : ℚ) + (b : ℚ)) * (1000004/1000000) / 10 := by
    have k3 : (3 : ℚ)/10 * (1000001/1000000) * (1000001/1000000) *
        (1000001/1000000) ≤ 3 * (1000004/1000000) / 10 := by norm_num
    have k6 : (6 : ℚ)/10 * (1000001/1000000) * (1000001/1000000) *
        (1000001/1000000) ≤ 6 * (1000004/1000000) / 10 := by norm_num
    have k1 : (1 : ℚ)/10 * (1000001/1000000) * (1000001/1000000) ≤
        (1000004/1000000) / 10 := by norm_num
    nlinarith [mul_le_mul_of_nonneg_right k3 hr0,
      mul_le_mul_of_nonneg_right k6 hg0,
      mul_le_mul_of_nonneg_right k1 hb0]
  apply pytrunc_le
  calc fl (fl (fl (c03 * r) + fl (c06 * g)) + fl (c01 * b)) ≤
      (3 * (r : ℚ) + 6 * (g : ℚ) + (b : ℚ)) * (1000004/1000000) / 10 :=
        le_trans hS hpoly
    _ < M + 1 := by linarith

lemma q_lt_pw2_52 {q : ℚ} (h : q ≤ 255) : q < pw2 52 := by
  have : (255 : ℚ) < pw2 52 := by
    rw [pw2_eq_natCast]
    norm_num
  linarith

lemma small_div_54 : (255 : ℚ) / pw2 54 ≤ 1/1000 := by
  rw [pw2_eq_natCast]
  norm_num

lemma small_div_53 : (255 : ℚ) / pw2 53 ≤ 1/1000 := by
  rw [pw2_eq_natCast]
  norm_num

lemma pw2_54_pos : (0 : ℚ) < pw2 54 := pw2_pos 54

/-- `int(c * br)` equals the exact `a * br // 10` whenever the binary64
constant `c` is within a relative `2^-54` of the decimal `a/10`: exact
multiples of `1/10` land within half an ulp of the rounded product, and
non-multiples are more than the total rounding error away from the next
integer. -/
lemma pytrunc_fl_mul (c : ℚ) (a br : Nat) (hbr : br ≤ 255) (hc0 : 0 < c)
    (hc1 : c ≤ 1) (ha1 : 1 ≤ a) (ha9 : a ≤ 9)
    (hnear : |c - (a : ℚ)/10| * pw2 54 ≤ c) :
    pytrunc (fl (c * br)) = a * br / 10 := by
  rcases Nat.eq_zero_or_pos br with hbr0 | hbrpos
  · subst hbr0
    simp only [Nat.cast_zero, mul_zero, fl_zero, Nat.mul_zero, Nat.zero_div]
    unfold pytrunc
    simp
  have hq : (0 : ℚ) < c * br := by
    have : (0 : ℚ) < (br : ℚ) := by exact_mod_cast hbrpos
    exact mul_pos hc0 this
  have hq255 : c * (br : ℚ) ≤ 255 := by
    have h1 : c * (br : ℚ) ≤ 1 * br :=
      mul_le_mul_of_nonneg_right hc1 (Nat.cast_nonneg br)
    have h2 : ((br : ℚ)) ≤ 255 := by exact_mod_cast hbr
    linarith
  have hql : c * (br : ℚ) < pw2 52 := q_lt_pw2_52 hq255
  have hdm := Nat.div_add_mod (a * br) 10
  set k := a * br / 10 with hkdef
  set f := a * br % 10 with hfdef
  have hflt : f < 10 := Nat.mod_lt _ (by norm_num)
  have hcast : ((a : ℚ)/10) * br = k + (f : ℚ)/10 := by
    have hc2 : ((a * br : ℕ) : ℚ) = ((10 * k + f : ℕ) : ℚ) := by
      rw [hdm]
    push_cast at hc2
    linarith [hc2]
  have hnear2 : |c - (a : ℚ)/10| ≤ c / pw2 54 := by
    rw [le_div_iff₀ pw2_54_pos]
    exact hnear
  have hdiff : |c * br - ((a : ℚ)/10) * br| ≤ (c * br) / pw2 54 := by
    have e1 : c * (br : ℚ) - ((a : ℚ)/10) * br = (c - (a : ℚ)/10) * br := by
      ring
    rw [e1, abs_mul, abs_of_nonneg (Nat.cast_nonneg (α := ℚ) br)]
    have h1 : |c - (a : ℚ)/10| * br ≤ (c / pw2 54) * br :=
      mul_le_mul_of_nonneg_right hnear2 (Nat.cast_nonneg br)
    calc |c - (a : ℚ)/10| * br ≤ (c / pw2 54) * br := h1
      _ = (c * br) / pw2 54 := by ring
  by_cases hf : f = 0
  · have hk1 : 1 ≤ k := by
      have hab : 1 ≤ a * br := Nat.one_le_iff_ne_zero.mpr
        (Nat.mul_ne_zero (by omega) (by omega))
      omega
    have hkq : (k : ℚ) = ((a : ℚ)/10) * br := by
      rw [hcast, hf]
      push_cast
      ring
    have hfl : fl (c * br) = k := by
      apply fl_eq_nat_of_near hq hk1 hql
      rw [hkq]
      exact hdiff
    rw [hfl, pytrunc_natCast]
  · have hf1 : (1 : ℚ) ≤ (f : ℚ) := by
      have : 1 ≤ f := by omega
      exact_mod_cast this
    have hf9 : (f : ℚ) ≤ 9 := by
      have : f ≤ 9 := by omega
      exact_mod_cast this
    have hk229 : (k : ℚ) ≤ 229 := by
      have hab : a * br ≤ 2295 := by
        calc a * br ≤ 9 * 255 := Nat.mul_le_mul ha9 hbr
          _ = 2295 := by norm_num
      have : k ≤ 229 := by omega
      exact_mod_cast this
    have hk0 : (0 : ℚ) ≤ (k : ℚ) := Nat.cast_nonneg k
    have habs := abs_le.mp hdiff
    have hq54 : (c * (br : ℚ)) / pw2 54 ≤ 1/1000 := by
      have h1 : (c * (br : ℚ)) / pw2 54 ≤ 255 / pw2 54 := by
        gcongr
        exact (pw2_pos 54).le
      linarith [small_div_54]
    have heps : (0 : ℚ) < 1/pw2 53 := div_pos one_pos (pw2_pos 53)
    have hqe : (c * (br : ℚ)) * (1/pw2 53) ≤ 255 * (1/pw2 53) :=
      mul_le_mul_of_nonneg_right hq255 heps.le
    have h255e : (255 : ℚ) * (1/pw2 53) ≤ 1/1000 := by
      rw [mul_one_div]
      exact small_div_53
    have hupper : fl (c * br) < (k : ℚ) + 1 := by
      have h1 : fl (c * br) ≤ (c * br) * (1 + 1/pw2 53) := fl_le_mul hq.le
      have hexp : (c * (br : ℚ)) * (1 + 1/pw2 53)
          = c * br + (c * br) * (1/pw2 53) := by ring
      have h2 : c * (br : ℚ) ≤ (k : ℚ) + (f : ℚ)/10 + (c * br) / pw2 54 := by
        rw [← hcast]
        linarith [habs.2]
      rw [hexp] at h1
      linarith [hqe, h255e, hq54, hf9]
    have hlower : (k : ℚ) ≤ fl (c * br) := by
      have h1 : (c * br) * (1 - 1/pw2 53) ≤ fl (c * br) := fl_ge_mul hq.le
      have hexp : (c * (br : ℚ)) * (1 - 1/pw2 53)
          = c * br - (c * br) * (1/pw2 53) := by ring
      have h2 : (k : ℚ) + (f : ℚ)/10 - (c * br) / pw2 54 ≤ c * (br : ℚ) := by
        rw [← hcast]
        linarith [habs.1]
      rw [hexp] at h1
      linarith [hqe, h255e, hq54, hf1]
    unfold pytrunc
    have hfloor : ⌊fl (c * br)⌋ = (k : ℤ) := by
      rw [Int.floor_eq_iff]
      constructor
      · exact_mod_cast hlower
      · push_cast
        exact hupper
    rw [hfloor]
    omega

lemma s6_eq {br : Nat} (hbr : br ≤ 255) :
    pytrunc (fl (c06 * br)) = 6 * br / 10 :=
  pytrunc_fl_mul c06 6 br hbr (by with_unfolding_all decide)
    (by with_unfolding_all decide) (by norm_num) (by norm_num)
    (by with_unfolding_all decide)

lemma s4_eq {br : Nat} (hbr : br ≤ 255) :
    pytrunc (fl (c04 * br)) = 4 * br / 10 :=
  pytrunc_fl_mul c04 4 br hbr (by with_unfolding_all decide)
    (by with_unfolding_all decide) (by norm_num) (by norm_num)
    (by with_unfolding_all decide)

lemma brightnessF_le_255 {r g b : Nat} (hr : r ≤ 255) (hg : g ≤ 255)
    (hb : b ≤ 255) : brightnessF r g b ≤ 255 := by
  apply brightnessF_le
  have hr2 : (r : ℚ) ≤ 255 := by exact_mod_cast hr
  have hg2 : (g : ℚ) ≤ 255 := by exact_mod_cast hg
  have hb2 : (b : ℚ) ≤ 255 := by exact_mod_cast hb
  linarith

lemma brightnessF_uniform_le {m : Nat} (hm : m ≤ 255) :
    brightnessF m m m ≤ m := by
  apply brightnessF_le
  have hm2 : (m : ℚ) ≤ 255 := by exact_mod_cast hm
  have hm0 : (0 : ℚ) ≤ (m : ℚ) := Nat.cast_nonneg m
  linarith

lemma brightnessF_sepia_le {br : Nat} (hbr : br ≤ 255) :
    brightnessF br (6 * br / 10) (4 * br / 10) ≤ br := by
  apply brightnessF_le
  have h6 : ((6 * br / 10 : ℕ) : ℚ) ≤ 6 * (br : ℚ) / 10 := by
    have := Nat.cast_div_le (m := 6 * br) (n := 10) (α := ℚ)
    push_cast at this
    linarith
  have h4 : ((4 * br / 10 : ℕ) : ℚ) ≤ 4 * (br : ℚ) / 10 := by
    have := Nat.cast_div_le (m := 4 * br) (n := 10) (α := ℚ)
    push_cast at this
    linarith
  have hbr0 : (0 : ℚ) ≤ (br : ℚ) := Nat.cast_nonneg br
  linarith

/-- Channel-wise comparison: `p` is darker than (or equal to) `q` on
red, green and blue, with identical alpha. -/
def pixelLE (p q : RGB) : Prop :=
  p.red ≤ q.red ∧ p.green ≤ q.green ∧ p.blue ≤ q.blue ∧ p.alpha = q.alpha

lemma monoPixel_reapply_le (sepia : Bool) (p : RGB) (h1 : p.red ≤ 255)
    (h2 : p.green ≤ 255) (h3 : p.blue ≤ 255) :
    pixelLE (monoPixel sepia (monoPixel sepia p)) (monoPixel sepia p) := by
  have hbr : brightnessF p.red p.green p.blue ≤ 255 :=
    brightnessF_le_255 h1 h2 h3
  have hm : min (brightnessF p.red p.green p.blue) 255
      = brightnessF p.red p.green p.blue := min_eq_left hbr
  cases sepia with
  | false =>
    simp only [monoPixel, Bool.false_eq_true, if_false, hm]
    have hu : brightnessF (brightnessF p.red p.green p.blue)
        (brightnessF p.red p.green p.blue)
        (brightnessF p.red p.green p.blue) ≤
        brightnessF p.red p.green p.blue := brightnessF_uniform_le hbr
    refine ⟨?_, ?_, ?_, rfl⟩ <;>
      exact le_trans (min_le_left _ _) hu
  | true =>
    simp only [monoPixel, eq_self_iff_true, if_true, hm]
    rw [s6_eq hbr, s4_eq hbr]
    set br := brightnessF p.red p.green p.blue with hbrdef
    have h6le : 6 * br / 10 ≤ 255 := by omega
    have h4le : 4 * br / 10 ≤ 255 := by omega
    rw [min_eq_left h6le, min_eq_left h4le]
    have hsep : brightnessF br (6 * br / 10) (4 * br / 10) ≤ br :=
      brightnessF_sepia_le hbr
    set br2 := brightnessF br (6 * br / 10) (4 * br / 10) with hbr2def
    have hbr2 : br2 ≤ 255 := le_trans hsep hbr
    rw [min_eq_left hbr2, s6_eq hbr2, s4_eq hbr2]
    rw [min_eq_left (show 6 * br2 / 10 ≤ 255 by omega),
      min_eq_left (show 4 * br2 / 10 ≤ 255 by omega)]
    exact ⟨hsep, Nat.div_le_div_right (Nat.mul_le_mul_left 6 hsep),
      Nat.div_le_div_right (Nat.mul_le_mul_left 4 hsep), rfl⟩

lemma forall₂_map_of_forall {α β : Type} (R : β → β → Prop) (f1 f2 : α → β) :
    ∀ (l : List α), (∀ x ∈ l, R (f1 x) (f2 x)) →
      List.Forall₂ R (l.map f1) (l.map f2) := by
  intro l
  induction l with
  | nil => exact fun _ => List.Forall₂.nil
  | cons x xs ih =>
    intro h
    simp only [List.map_cons]
    exact List.Forall₂.cons (h x (by simp))
      (ih fun y hy => h y (by simp [hy]))

/-- C8 (amended): `mono` is not idempotent, but re-applying it with the
same `sepia` argument never increases any color channel, never changes
any alpha, and preserves the row structure (stated as a `Forall₂`
between the twice- and once-filtered grids). -/
theorem mono_reapplication_nonincreasing :
    ∀ (g : Grid) (sepia : Bool),
      (∀ row ∈ g, ∀ p ∈ row, p.red ≤ 255 ∧ p.green ≤ 255 ∧ p.blue ≤ 255) →
      List.Forall₂ (List.Forall₂ pixelLE) (mono (mono g sepia) sepia)
        (mono g sepia) := by
  intro g sepia hbnd
  unfold mono
  rw [List.map_map]
  apply forall₂_map_of_forall
  intro row hrow
  simp only [Function.comp]
  rw [List.map_map]
  apply forall₂_map_of_forall
  intro p hp
  simp only [Function.comp]
  obtain ⟨b1, b2, b3⟩ := hbnd row hrow p hp
  exact monoPixel_reapply_le sepia p b1 b2 b3

/-- C8 witness: the non-increase relation at a concrete one-pixel grid
with `sepia = true`. -/
theorem mono_reapplication_nonincreasing_witness :
    List.Forall₂ (List.Forall₂ pixelLE)
      (mono (mono [[⟨10, 20, 30, 40⟩]] true) true)
      (mono [[⟨10, 20, 30, 40⟩]] true) :=
  mono_reapplication_nonincreasing [[⟨10, 20, 30, 40⟩]] true (by decide)

/-- C8 counterexample: `mono` is not idempotent.  With `sepia = true` on
the pixel `(200, 100, 50, 255)`, one application gives
`(125, 75, 50, 255)` but a second application changes it again (to
`(87, 52, 34, 255)`). -/
theorem mono_not_idempotent_cex :
    mono (mono [[⟨200, 100, 50, 255⟩]] true) true
      ≠ mono [[⟨200, 100, 50, 255⟩]] true := by
  with_unfolding_all decide

/-- C5 (amended): `mono` computes the brightness once per pixel as the
truncated IEEE binary64 evaluation of `0.3*red + 0.6*green + 0.1*blue`
(clamped to at most 255) — not the exact mathematical floor, which it
can undershoot; the rest is as claimed: without `sepia` all three color
channels become the brightness with alpha untouched, with `sepia` red
is the brightness and green/blue are `min(floor(0.6*brightness), 255)`
and `min(floor(0.4*brightness), 255)`; on the pixel
`(200, 100, 50, 255)` the brightness is 125 and the results are
`(125, 125, 125, 255)` and `(125, 75, 50, 255)`. -/
theorem mono_pixel_formula_amended :
    (∀ (g : Grid) (sepia : Bool),
      (∀ row ∈ g, ∀ p ∈ row, p.red ≤ 255 ∧ p.green ≤ 255 ∧ p.blue ≤ 255) →
      mono g sepia = g.map fun row => row.map fun p =>
        let br := min (brightnessF p.red p.green p.blue) 255
        if sepia then
          RGB.mk br (min (6 * br / 10) 255) (min (4 * br / 10) 255) p.alpha
        else RGB.mk br br br p.alpha) ∧
    mono [[⟨200, 100, 50, 255⟩]] false = [[⟨125, 125, 125, 255⟩]] ∧
    mono [[⟨200, 100, 50, 255⟩]] true = [[⟨125, 75, 50, 255⟩]] := by
  refine ⟨?_, by with_unfolding_all decide, by with_unfolding_all decide⟩
  intro g sepia hbnd
  unfold mono
  refine List.map_congr_left fun row hrow => ?_
  refine List.map_congr_left fun p hp => ?_
  obtain ⟨b1, b2, b3⟩ := hbnd row hrow p hp
  have hbr : brightnessF p.red p.green p.blue ≤ 255 :=
    brightnessF_le_255 b1 b2 b3
  have hm : min (brightnessF p.red p.green p.blue) 255
      = brightnessF p.red p.green p.blue := min_eq_left hbr
  cases sepia with
  | false => simp only [monoPixel, Bool.false_eq_true, if_false, hm]
  | true =>
    simp only [monoPixel, eq_self_iff_true, if_true, hm]
    rw [s6_eq hbr, s4_eq hbr]

/-- C5 witness: the amended per-pixel formula at a concrete one-pixel
grid with `sepia = true`. -/
theorem mono_pixel_formula_amended_witness :
    mono [[⟨3, 2, 1, 9⟩]] true = ([[⟨3, 2, 1, 9⟩]] : Grid).map fun row =>
      row.map fun p =>
        let br := min (brightnessF p.red p.green p.blue) 255
        if true then
          RGB.mk br (min (6 * br / 10) 255) (min (4 * br / 10) 255) p.alpha
        else RGB.mk br br br p.alpha :=
  mono_pixel_formula_amended.1 [[⟨3, 2, 1, 9⟩]] true (by decide)

/-- C5 counterexample: the float evaluation deviates from the exact
floor.  On the pixel `(0, 3, 2, 7)` the claimed brightness
`floor(0.3*0 + 0.6*3 + 0.1*2) = 2`, but the code computes
`int(1.9999999999999998) = 1` and writes `(1, 1, 1, 7)`. -/
theorem mono_brightness_deviates_from_exact_floor :
    (3 * 0 + 6 * 3 + 1 * 2) / 10 = 2 ∧
    mono [[⟨0, 3, 2, 7⟩]] false = [[⟨1, 1, 1, 7⟩]] :=
  ⟨by norm_num, by with_unfolding_all decide⟩

end Pictool
